import Mathlib

/-
Verification of the wcm-graph dependency-graph core.

The development shallowly embeds the TypeScript sources:
  - source/lib/utilities/utilities.ts (makeCaseInsensitive and its proxy traps),
  - source/lib/graph/graph.ts (BaseGraph, InternalGraph, DependencyGraph),
  - source/lib/graph/storage (node and relation stores).

A JavaScript plain object is modelled as an association list of
(key, value) pairs in insertion order: property read is the first entry
with an exactly equal key, property write overwrites an existing entry in
place or appends a fresh one at the end, and key enumeration lists keys
in insertion order.  The makeCaseInsensitive proxy lower-cases the probe
key on both reads and writes, so it is modelled by lower-casing the key
before the plain-object operation.  Thrown JS errors become an Except
value paired with the state the operation leaves behind.
-/

namespace WcmGraph

/-- ASCII lower-casing of one character: code points 65..90 are shifted by a
distance of 32, everything else is untouched.  This models the behaviour of
the JavaScript toLowerCase call on the ASCII range (the range exercised by
the repository). -/
def lowerChar (c : Char) : Char :=
  if 65 ≤ c.toNat ∧ c.toNat ≤ 90 then Char.ofNat (c.toNat + 32) else c

/-- Lower-casing of a string, character by character (JS toLowerCase). -/
def lowerStr (s : String) : String := ⟨s.data.map lowerChar⟩

/-- Plain-object property read: value of the first entry whose key equals
the probe key exactly, none when the object has no such property. -/
def alistGet (k : String) : List (String × α) → Option α
  | [] => none
  | (k2, v) :: rest => if k2 = k then some v else alistGet k rest

/-- Plain-object property test (hasOwnProperty). -/
def alistHas (k : String) (l : List (String × α)) : Bool :=
  (alistGet k l).isSome

/-- Plain-object property write: overwrite the entry with the probe key in
place when present, otherwise append a fresh entry at the end. -/
def alistSet (k : String) (v : α) : List (String × α) → List (String × α)
  | [] => [(k, v)]
  | (k2, v2) :: rest =>
    if k2 = k then (k2, v) :: rest else (k2, v2) :: alistSet k v rest

/-- Plain-object key enumeration, in insertion order. -/
def alistKeys (l : List (String × α)) : List String := l.map Prod.fst

/-- Proxy read through makeCaseInsensitive: caseInsensitivePropGet
(utilities.ts) lower-cases the probe key and reads the target object. -/
def ciGet (k : String) (l : List (String × α)) : Option α :=
  alistGet (lowerStr k) l

/-- Proxy write through makeCaseInsensitive: caseInsensitivePropSet
(utilities.ts) lower-cases the probe key and writes the target object, so
the stored key is the lower-cased key. -/
def ciSet (k : String) (v : α) (l : List (String × α)) : List (String × α) :=
  alistSet (lowerStr k) v l

/-- Proxy property test through makeCaseInsensitive:
caseInsensitivePropDescriptor lower-cases the probe key before the
hasOwnProperty check of the target object. -/
def ciHas (k : String) (l : List (String × α)) : Bool :=
  alistHas (lowerStr k) l

/-- The errors thrown by the graph layer: nodeAlreadyExistsErr,
noNodeFoundErr and versionAlreadyExistsErr of graph.ts, each carrying the
names interpolated into its message. -/
inductive GraphErr where
  | alreadyExists (name : String)
  | notFound (name : String)
  | versionAlreadyExists (name : String) (version : String)
deriving Repr, DecidableEq

/-- The state of one graph instance: the node store and the relation store
(the two weakmap entries keyed by the instance).  Node values have type ν,
relation payloads have type β; a relation bucket is itself a plain object
from target name to payload. -/
structure GraphState (ν β : Type) where
  nodes : List (String × ν)
  relations : List (String × List (String × β))
deriving Repr, DecidableEq

/-- A fresh graph: the BaseGraph constructor initialises both stores to
empty objects. -/
def emptyGraph : GraphState ν β := ⟨[], []⟩

/-- nodeExists (graph.ts): a has-check on the case-insensitive node store. -/
def nodeExists (g : GraphState ν β) (name : String) : Bool :=
  ciHas name g.nodes

/-- InternalGraph.__getNode: returns the stored node value, or throws
noNodeFoundErr when the case-insensitive lookup misses. -/
def getNode (g : GraphState ν β) (name : String) : Except GraphErr ν :=
  match ciGet name g.nodes with
  | some v => Except.ok v
  | none => Except.error (GraphErr.notFound name)

/-- InternalGraph.__hasNode: nodeExists. -/
def hasNode (g : GraphState ν β) (name : String) : Bool :=
  nodeExists g name

/-- InternalGraph.__addNode: throws nodeAlreadyExistsErr when a node with
the name already exists (case-insensitively), otherwise stores the data
under the name and initialises an empty relation bucket for it.  Both
writes go through the case-insensitive proxy. -/
def addNode (g : GraphState ν β) (name : String) (data : ν) :
    Except GraphErr Unit × GraphState ν β :=
  if nodeExists g name then (Except.error (GraphErr.alreadyExists name), g)
  else (Except.ok (),
    { nodes := ciSet name data g.nodes
      relations := ciSet name [] g.relations })

/-- InternalGraph.__listNodes: the keys of the node store.  Key enumeration
is not intercepted by the proxy, so it lists the stored (lower-cased) keys
in insertion order. -/
def listNodes (g : GraphState ν β) : List String :=
  alistKeys g.nodes

/-- The single mutation step of __markDependency: getRelation(this)(from)
reads the bucket of the source through the case-insensitive proxy, and the
bucket itself is a plain object written at the exact target key.  When the
source has no bucket the list is returned unchanged; that situation is a
TypeError in JS and is unreachable through the graph API, which always
initialises a bucket alongside every node. -/
def setEdge (fromName toName : String) (data : β) :
    List (String × List (String × β)) → List (String × List (String × β))
  | [] => []
  | (k, b) :: rest =>
    if k = lowerStr fromName then (k, alistSet toName data b) :: rest
    else (k, b) :: setEdge fromName toName data rest

/-- InternalGraph.__markDependency: checks the source node first, then the
target node, throwing noNodeFoundErr for the first one missing; only after
both checks does it write the edge into the bucket of the source. -/
def markDependency (g : GraphState ν β) (fromName toName : String) (data : β) :
    Except GraphErr Unit × GraphState ν β :=
  if ¬ nodeExists g fromName then (Except.error (GraphErr.notFound fromName), g)
  else if ¬ nodeExists g toName then (Except.error (GraphErr.notFound toName), g)
  else (Except.ok (), { g with relations := setEdge fromName toName data g.relations })

/-- relationExists (graph.ts): true when the target name is among the keys
of the bucket of the source (exact-case key comparison on the bucket); a
missing bucket yields false. -/
def hasDependency (g : GraphState ν β) (fromName toName : String) : Bool :=
  match ciGet fromName g.relations with
  | some b => (alistKeys b).contains toName
  | none => false

/-- InternalGraph.__listDependencies: getRelation(this)(of), a plain
case-insensitive property read of the relation store.  It returns the
bucket when present and undefined (none) otherwise; no error is thrown. -/
def listDependencies (g : GraphState ν β) (of : String) :
    Option (List (String × β)) :=
  ciGet of g.relations

/-- InternalGraph.__listDependants: keeps the buckets that contain the
probe name among their keys (pickBy with contains), and maps each kept
source name to the payload its bucket stores for the probe name
(mapObjIndexed with prop). -/
def listDependants (g : GraphState ν β) (of : String) : List (String × β) :=
  g.relations.filterMap fun p =>
    if (alistKeys p.2).contains of then (alistGet of p.2).map fun v => (p.1, v)
    else none

/-- The node record stored by the dependency layer (IGraphNode of the node
store): the caller payload, the canonical version, and the alias list. -/
structure GraphNode (α : Type) where
  data : α
  version : String
  aliases : List String
deriving Repr, DecidableEq

/-- A dependency graph: an internal graph whose node values are GraphNode
records. -/
abbrev DepGraph (α β : Type) := GraphState (GraphNode α) β

/-- DependencyGraph.addRealDependency: addNode with the record holding the
payload, the version, and an alias list initialised to that one version. -/
def addRealDependency (g : DepGraph α β) (name version : String) (data : α) :
    Except GraphErr Unit × DepGraph α β :=
  addNode g name ⟨data, version, [version]⟩

/-- Update the first node entry stored under the lower-cased probe name,
leaving every other entry alone.  This is the in-place record mutation
performed when code writes through a reference obtained from the
case-insensitive store. -/
def updateNode (name : String) (f : ν → ν) :
    List (String × ν) → List (String × ν)
  | [] => []
  | (k, v) :: rest =>
    if k = lowerStr name then (k, f v) :: rest
    else (k, v) :: updateNode name f rest

/-- DependencyGraph.addImpliedDependency: getInternalNode(name) runs first
and throws noNodeFoundErr when the node is missing; then, when the version
is already among the aliases of the node, versionAlreadyExistsErr is
thrown; otherwise pushToArray appends the version at the end of the alias
list of the node. -/
def addImpliedDependency (g : DepGraph α β) (name version : String) :
    Except GraphErr Unit × DepGraph α β :=
  match ciGet name g.nodes with
  | none => (Except.error (GraphErr.notFound name), g)
  | some n =>
    if n.aliases.contains version then
      (Except.error (GraphErr.versionAlreadyExists name version), g)
    else
      (Except.ok (),
        { g with nodes :=
            updateNode name (fun m => { m with aliases := m.aliases ++ [version] }) g.nodes })

/-- DependencyGraph.getDependencyData: the data field of
getInternalNode(name); propagates its noNodeFoundErr. -/
def getDependencyData (g : DepGraph α β) (name : String) : Except GraphErr α :=
  (getNode g name).map GraphNode.data

/-- DependencyGraph.getDependencyVersion: the version field of
getInternalNode(name); propagates its noNodeFoundErr. -/
def getDependencyVersion (g : DepGraph α β) (name : String) : Except GraphErr String :=
  (getNode g name).map GraphNode.version

/-- DependencyGraph.getDependencyAliases: the aliases field of
getInternalNode(name); propagates its noNodeFoundErr. -/
def getDependencyAliases (g : DepGraph α β) (name : String) : Except GraphErr (List String) :=
  (getNode g name).map GraphNode.aliases

/-- The dependency metadata pair (IBaseDependencyMetadata). -/
structure DependencyMetadata where
  name : String
  version : String
deriving Repr, DecidableEq

/-- The result of parsing a metadata token: the version field is absent
(undefined in JS) when the token has no separator. -/
structure ParsedMetadata where
  name : String
  version : Option String
deriving Repr, DecidableEq

/-- BaseGraph.stringifyDependencyMetadata: join("@") over the values of the
pair, in field order name then version. -/
def stringifyDependencyMetadata (m : DependencyMetadata) : String :=
  m.name ++ "@" ++ m.version

/-- JS String.split with a one-character separator: cut the character list
at every occurrence of the separator; adjacent separators and separators at
either end produce empty segments, and the empty input yields one empty
segment. -/
def splitAtSep (sep : Char) : List Char → List (List Char)
  | [] => [[]]
  | c :: cs =>
    if c = sep then [] :: splitAtSep sep cs
    else
      match splitAtSep sep cs with
      | [] => [[c]]
      | s :: ss => (c :: s) :: ss

/-- BaseGraph.parseDependencyMetadata: split the token at every "@"; the
name is the segment before the first separator, the version is the segment
between the first and the second separator, absent when the token has no
separator (zipObj of the segments against the keys name and version). -/
def parseDependencyMetadata (value : String) : ParsedMetadata :=
  let segs := splitAtSep '@' value.data
  { name := ⟨segs.headD []⟩, version := (segs[1]?).map fun s => (⟨s⟩ : String) }

/-- The mutating public operations of the dependency graph, as invoked by
the ingestion flow: addRealDependency, addImpliedDependency, and
createInterDependency (which is markDependency on the metadata fields). -/
inductive GraphOp (α β : Type) where
  | real (name version : String) (data : α)
  | implied (name version : String)
  | mark (fromName toName : String) (data : β)

/-- Run one public operation; a thrown error propagates to the caller and
the operation leaves behind the state it reached (for these operations,
the state it started from, as the checks precede every mutation). -/
def applyOp (g : DepGraph α β) : GraphOp α β → Except GraphErr Unit × DepGraph α β
  | GraphOp.real name version data => addRealDependency g name version data
  | GraphOp.implied name version => addImpliedDependency g name version
  | GraphOp.mark fromName toName data => markDependency g fromName toName data

/-- Run a sequence of public operations, continuing past failed calls with
the state each failed call left behind. -/
def runOps (g : DepGraph α β) : List (GraphOp α β) → DepGraph α β
  | [] => g
  | op :: rest => runOps (applyOp g op).2 rest

/-- Bucket coverage: every stored node key owns a relation bucket.  Holds
in every state reachable through the API, where addNode initialises the
bucket of each node. -/
def BucketsCover (g : GraphState ν β) : Prop :=
  ∀ k, alistHas k g.nodes = true → alistHas k g.relations = true

/-- The state invariant of a dependency graph: stored node keys are unique
even compared case-insensitively, every stored node key is already
lower-cased (the proxy lower-cases on write), every node holds its
canonical version among its aliases, and every stored node has a relation
bucket. -/
def Invariant (g : DepGraph α β) : Prop :=
  ((alistKeys g.nodes).map lowerStr).Nodup ∧
  (∀ p ∈ g.nodes, lowerStr p.1 = p.1) ∧
  (∀ p ∈ g.nodes, p.2.version ∈ p.2.aliases) ∧
  BucketsCover g

/-- Monotone growth between two graph states: every stored node is still
stored, with the same payload and canonical version, and with an alias
list that extends the earlier one at the end. -/
def Extends (g g2 : DepGraph α β) : Prop :=
  ∀ k n, alistGet k g.nodes = some n →
    ∃ m, alistGet k g2.nodes = some m ∧ m.data = n.data ∧
      m.version = n.version ∧ ∃ tail, m.aliases = n.aliases ++ tail

/-- ASCII lower-casing is idempotent: a character in the lower-case range
is left where it is by a second pass. -/
theorem lowerChar_idem (c : Char) : lowerChar (lowerChar c) = lowerChar c := by
  unfold lowerChar
  by_cases h : 65 ≤ c.toNat ∧ c.toNat ≤ 90
  · rw [if_pos h]
    have hv : Nat.isValidChar (c.toNat + 32) := Or.inl (by omega)
    have ht : (Char.ofNat (c.toNat + 32)).toNat = c.toNat + 32 := by
      unfold Char.ofNat
      rw [dif_pos hv]
      rfl
    rw [if_neg]
    rw [ht]
    omega
  · rw [if_neg h, if_neg h]

/-- Lower-casing a string twice is the same as lower-casing it once. -/
theorem lowerStr_idem (s : String) : lowerStr (lowerStr s) = lowerStr s := by
  unfold lowerStr
  refine congrArg String.mk ?_
  show (s.data.map lowerChar).map lowerChar = s.data.map lowerChar
  rw [List.map_map]
  exact List.map_congr_left fun c _ => lowerChar_idem c

/-- Reading after a write: the probe key sees the written value, every
other key sees the old object. -/
theorem alistGet_set (k k2 : String) (v : α) (l : List (String × α)) :
    alistGet k (alistSet k2 v l) = if k2 = k then some v else alistGet k l := by
  induction l with
  | nil => by_cases h : k2 = k <;> simp [alistSet, alistGet, h]
  | cons p tl ih =>
    obtain ⟨a, b⟩ := p
    by_cases h1 : a = k2
    · subst h1
      by_cases h2 : a = k <;> simp [alistSet, alistGet, h2]
    · have h1b : ¬ k2 = a := fun h => h1 h.symm
      by_cases h2 : a = k
      · subst h2
        simp [alistSet, alistGet, h1, h1b]
      · simp [alistSet, alistGet, h1, h2, ih]

/-- The property test succeeds exactly on the enumerated keys. -/
theorem alistHas_iff (k : String) (l : List (String × α)) :
    alistHas k l = true ↔ k ∈ alistKeys l := by
  induction l with
  | nil => simp [alistHas, alistGet, alistKeys]
  | cons p tl ih =>
    obtain ⟨a, b⟩ := p
    by_cases h : a = k
    · subst h
      simp [alistHas, alistGet, alistKeys]
    · have hb : ¬ k = a := fun hh => h hh.symm
      simp only [alistHas, alistGet, alistKeys, List.map_cons, List.mem_cons, if_neg h]
      rw [← alistHas]
      rw [ih]
      simp [alistKeys, hb]

/-- Reading a concatenated object: the left part wins when it has the
key. -/
theorem alistGet_append (k : String) (l1 l2 : List (String × α)) :
    alistGet k (l1 ++ l2) =
      match alistGet k l1 with
      | some v => some v
      | none => alistGet k l2 := by
  induction l1 with
  | nil => simp [alistGet]
  | cons p tl ih =>
    obtain ⟨a, b⟩ := p
    by_cases h : a = k <;> simp [alistGet, h, ih]

/-- Writing an absent key appends the fresh entry at the end. -/
theorem alistSet_eq_append (k : String) (v : α) (l : List (String × α))
    (h : alistHas k l = false) : alistSet k v l = l ++ [(k, v)] := by
  induction l with
  | nil => rfl
  | cons p tl ih =>
    obtain ⟨a, b⟩ := p
    by_cases h2 : a = k
    · subst h2
      simp [alistHas, alistGet] at h
    · have htl : alistHas k tl = false := by
        simpa [alistHas, alistGet, h2] using h
      simp [alistSet, h2, ih htl]

/-- Key enumeration of a concatenation. -/
theorem alistKeys_append (l1 l2 : List (String × α)) :
    alistKeys (l1 ++ l2) = alistKeys l1 ++ alistKeys l2 := by
  simp [alistKeys]

/-- Reading after an in-place record update: the lower-cased probe name
sees the updated record, every other key is untouched. -/
theorem alistGet_updateNode (k name : String) (f : ν → ν) (l : List (String × ν)) :
    alistGet k (updateNode name f l) =
      if lowerStr name = k then (alistGet k l).map f else alistGet k l := by
  induction l with
  | nil => by_cases h : lowerStr name = k <;> simp [updateNode, alistGet, h]
  | cons p tl ih =>
    obtain ⟨a, b⟩ := p
    by_cases h1 : a = lowerStr name
    · subst h1
      by_cases h2 : lowerStr name = k <;> simp [updateNode, alistGet, h2]
    · by_cases h2 : a = k
      · subst h2
        have h1b : ¬ lowerStr name = a := fun hh => h1 hh.symm
        simp [updateNode, alistGet, h1, h1b]
      · simp [updateNode, alistGet, h1, h2, ih]

/-- An in-place record update does not change the key enumeration. -/
theorem updateNode_keys (name : String) (f : ν → ν) (l : List (String × ν)) :
    alistKeys (updateNode name f l) = alistKeys l := by
  induction l with
  | nil => rfl
  | cons p tl ih =>
    obtain ⟨a, b⟩ := p
    by_cases h : a = lowerStr name
    · simp [updateNode, alistKeys, h]
    · simp [updateNode, alistKeys, h]
      simpa [alistKeys] using ih

/-- Every entry of an updated object comes from an entry of the old object
with the same key, either untouched or with the update applied. -/
theorem mem_updateNode (name : String) (f : ν → ν) (l : List (String × ν))
    (p : String × ν) (hp : p ∈ updateNode name f l) :
    ∃ v, (p.1, v) ∈ l ∧ (p.2 = v ∨ p.2 = f v) := by
  induction l with
  | nil => simp [updateNode] at hp
  | cons q tl ih =>
    obtain ⟨a, b⟩ := q
    by_cases h : a = lowerStr name
    · rw [updateNode, if_pos h] at hp
      rcases List.mem_cons.mp hp with hp | hp
      · subst hp
        exact ⟨b, by simp, Or.inr rfl⟩
      · exact ⟨p.2, List.mem_cons_of_mem _ hp, Or.inl rfl⟩
    · rw [updateNode, if_neg h] at hp
      rcases List.mem_cons.mp hp with hp | hp
      · subst hp
        exact ⟨b, by simp, Or.inl rfl⟩
      · obtain ⟨v, hv1, hv2⟩ := ih hp
        exact ⟨v, List.mem_cons_of_mem _ hv1, hv2⟩

/-- Writing one edge is an in-place update of the bucket of the source. -/
theorem setEdge_eq_updateNode (fromName toName : String) (d : β)
    (l : List (String × List (String × β))) :
    setEdge fromName toName d l = updateNode fromName (alistSet toName d) l := by
  induction l with
  | nil => rfl
  | cons p tl ih =>
    obtain ⟨a, b⟩ := p
    by_cases h : a = lowerStr fromName <;> simp [setEdge, updateNode, h, ih]

/-- Splitting a list free of the separator yields that one segment. -/
theorem splitAtSep_no_sep (sep : Char) (cs : List Char) (h : sep ∉ cs) :
    splitAtSep sep cs = [cs] := by
  induction cs with
  | nil => rfl
  | cons c tl ih =>
    simp only [List.mem_cons, not_or] at h
    have hc : ¬ c = sep := fun hh => h.1 hh.symm
    rw [splitAtSep, if_neg hc, ih h.2]

/-- Splitting past a leading separator-free block cuts exactly at the first
separator. -/
theorem splitAtSep_append (sep : Char) (xs rest : List Char) (h : sep ∉ xs) :
    splitAtSep sep (xs ++ sep :: rest) = xs :: splitAtSep sep rest := by
  induction xs with
  | nil => simp [splitAtSep]
  | cons x tl ih =>
    simp only [List.mem_cons, not_or] at h
    have hx : ¬ x = sep := fun hh => h.1 hh.symm
    rw [List.cons_append, splitAtSep, if_neg hx, ih h.2]

/-- Coverage of node keys by relation buckets follows from inclusion of the
(finite, decidable) key enumerations. -/
theorem bucketsCover_via_keys (g : GraphState ν β)
    (h : ∀ k ∈ alistKeys g.nodes, k ∈ alistKeys g.relations) : BucketsCover g :=
  fun k hk => (alistHas_iff k g.relations).mpr (h k ((alistHas_iff k g.nodes).mp hk))

/-- The graph invariant follows from finitely checkable facts about the two
stores. -/
theorem invariant_via_keys (g : DepGraph α β)
    (h1 : ((alistKeys g.nodes).map lowerStr).Nodup)
    (h2 : ∀ p ∈ g.nodes, lowerStr p.1 = p.1)
    (h3 : ∀ p ∈ g.nodes, p.2.version ∈ p.2.aliases)
    (h4 : ∀ k ∈ alistKeys g.nodes, k ∈ alistKeys g.relations) : Invariant g :=
  ⟨h1, h2, h3, bucketsCover_via_keys g h4⟩

/-- C2 counterexample: the metadata pair with name "a@b" and version "1"
has a version free of the separator, yet stringifying and parsing it back
yields the pair with name "a" and version "b", not the original pair: the
parser splits at the first separator, which here sits inside the name. -/
theorem stringify_parse_not_injective_on_at_names :
    '@' ∉ ("1" : String).data ∧
    parseDependencyMetadata (stringifyDependencyMetadata ⟨"a@b", "1"⟩) =
      ⟨"a", some "b"⟩ ∧
    parseDependencyMetadata (stringifyDependencyMetadata ⟨"a@b", "1"⟩) ≠
      ⟨"a@b", some "1"⟩ := by
  refine ⟨by decide, by decide, by decide⟩

/-- C2 (amended): for every metadata pair in which neither the name nor the
version contains the separator "@", parsing the stringified token returns
the original name and the original version. -/
theorem parse_stringify_roundtrip (n v : String)
    (hn : '@' ∉ n.data) (hv : '@' ∉ v.data) :
    parseDependencyMetadata (stringifyDependencyMetadata ⟨n, v⟩) = ⟨n, some v⟩ := by
  unfold parseDependencyMetadata stringifyDependencyMetadata
  have hdata : (n ++ "@" ++ v).data = n.data ++ '@' :: v.data := by
    rw [String.data_append, String.data_append]
    show (n.data ++ ['@']) ++ v.data = _
    simp
  rw [hdata, splitAtSep_append '@' n.data _ hn, splitAtSep_no_sep '@' v.data hv]
  rfl

/-- C2 witness: the round-trip theorem applied to the pair with name "foo"
and version "1.0.0". -/
theorem parse_stringify_roundtrip_witness :
    parseDependencyMetadata (stringifyDependencyMetadata ⟨"foo", "1.0.0"⟩) =
      ⟨"foo", some "1.0.0"⟩ :=
  parse_stringify_roundtrip "foo" "1.0.0" (by decide) (by decide)

/-- C10: a token free of "@" parses to itself as the name with no version;
a token that decomposes around two separators, with separator-free segments
before the first and between the first and the second, parses to those two
segments as name and version, whatever follows the second separator. -/
theorem parse_edge_cases (value : String) (xs ys zs : List Char) :
    ('@' ∉ value.data → parseDependencyMetadata value = ⟨value, none⟩) ∧
    (value.data = xs ++ '@' :: (ys ++ '@' :: zs) → '@' ∉ xs → '@' ∉ ys →
      parseDependencyMetadata value = ⟨⟨xs⟩, some ⟨ys⟩⟩) := by
  constructor
  · intro h
    unfold parseDependencyMetadata
    rw [splitAtSep_no_sep '@' value.data h]
    rfl
  · intro hdec hxs hys
    unfold parseDependencyMetadata
    rw [hdec, splitAtSep_append '@' xs _ hxs, splitAtSep_append '@' ys _ hys]
    simp

/-- C10 witness: the edge-case theorem applied to a token with a leading
separator (a scoped package name) and to a separator-free token. -/
theorem parse_edge_cases_witness :
    parseDependencyMetadata "@scope/pkg@1" = ⟨"", some "scope/pkg"⟩ ∧
    parseDependencyMetadata "abc" = ⟨"abc", none⟩ :=
  ⟨(parse_edge_cases "@scope/pkg@1" [] "scope/pkg".data "1".data).2
      (by decide) (by decide) (by decide),
    (parse_edge_cases "abc" [] [] []).1 (by decide)⟩

/-- C1 counterexample: after addNode with the name "Foo", the lookups with
the probe "foo" succeed, but listNodes yields the lower-cased stored key
"foo" and not the original casing "Foo": the proxy lower-cases the key at
set time as well. -/
theorem listNodes_loses_original_casing :
    hasNode (addNode (emptyGraph : GraphState Nat Nat) "Foo" 7).2 "foo" = true ∧
    getNode (addNode (emptyGraph : GraphState Nat Nat) "Foo" 7).2 "foo" = Except.ok 7 ∧
    listNodes (addNode (emptyGraph : GraphState Nat Nat) "Foo" 7).2 = ["foo"] ∧
    "Foo" ∉ listNodes (addNode (emptyGraph : GraphState Nat Nat) "Foo" 7).2 := by
  refine ⟨by decide, rfl, by decide, by decide⟩

/-- C1 (amended): adding a fresh node under a name makes every lookup whose
probe lower-cases to the same key succeed with the stored data, and appends
the lower-cased form of the name (not the original casing) to listNodes:
the stored key is the lower-cased set-time name. -/
theorem addNode_case_insensitive (g : GraphState ν β) (n m : String) (x : ν)
    (hn : nodeExists g n = false) (hm : lowerStr m = lowerStr n) :
    hasNode (addNode g n x).2 m = true ∧
    getNode (addNode g n x).2 m = Except.ok x ∧
    listNodes (addNode g n x).2 = listNodes g ++ [lowerStr n] := by
  have hhas : alistHas (lowerStr n) g.nodes = false := hn
  simp only [addNode, hn, Bool.false_eq_true, if_false]
  refine ⟨?_, ?_, ?_⟩
  · show ciHas m (ciSet n x g.nodes) = true
    unfold ciHas ciSet alistHas
    rw [hm, alistGet_set, if_pos rfl]
    rfl
  · show getNode (GraphState.mk (ciSet n x g.nodes) (ciSet n [] g.relations)) m = Except.ok x
    unfold getNode ciGet ciSet
    rw [hm, alistGet_set, if_pos rfl]
  · show alistKeys (ciSet n x g.nodes) = alistKeys g.nodes ++ [lowerStr n]
    unfold ciSet
    rw [alistSet_eq_append _ _ _ hhas, alistKeys_append]
    rfl

/-- C1 witness: the amended theorem applied to a fresh graph, the set-time
name "Bar" and the probe "bAR". -/
theorem addNode_case_insensitive_witness :
    hasNode (addNode (emptyGraph : GraphState Nat Nat) "Bar" 3).2 "bAR" = true ∧
    getNode (addNode (emptyGraph : GraphState Nat Nat) "Bar" 3).2 "bAR" = Except.ok 3 ∧
    listNodes (addNode (emptyGraph : GraphState Nat Nat) "Bar" 3).2 =
      listNodes (emptyGraph : GraphState Nat Nat) ++ [lowerStr "Bar"] :=
  addNode_case_insensitive emptyGraph "Bar" "bAR" 3 (by decide) (by decide)

/-- C3 counterexample: on a graph holding only the node "foo", the call
listDependencies "bar" evaluates to none, the model of the undefined value
the property read returns in JS: no node "bar" exists, yet no NotFoundError
is raised — the embedded operation is total and error-free, as getRelation
performs a bare property lookup with no existence check. -/
theorem listDependencies_unknown_returns_undefined :
    nodeExists (addNode (emptyGraph : GraphState Nat Nat) "foo" 7).2 "bar" = false ∧
    listDependencies (addNode (emptyGraph : GraphState Nat Nat) "foo" 7).2 "bar" = none := by
  exact ⟨by decide, rfl⟩

/-- C3 (amended): listDependencies returns the full outgoing edge map of a
node — the bucket addNode initialises empty and markDependency extends —
and returns undefined (none) rather than raising NotFoundError when the
probe owns no bucket. -/
theorem listDependencies_spec (g : GraphState ν β)
    (name of fromName toName : String) (d : ν) (dat : β) :
    (nodeExists g name = false →
      listDependencies (addNode g name d).2 name = some []) ∧
    (ciHas of g.relations = false → listDependencies g of = none) ∧
    (BucketsCover g → nodeExists g fromName = true → nodeExists g toName = true →
      ∃ b, listDependencies g fromName = some b ∧
        listDependencies (markDependency g fromName toName dat).2 fromName =
          some (alistSet toName dat b)) := by
  refine ⟨?_, ?_, ?_⟩
  · intro hn
    simp only [addNode, hn, Bool.false_eq_true, if_false]
    show alistGet (lowerStr name) (alistSet (lowerStr name) [] g.relations) = some []
    rw [alistGet_set, if_pos rfl]
  · intro h
    show alistGet (lowerStr of) g.relations = none
    have h2 : (alistGet (lowerStr of) g.relations).isSome = false := h
    cases hg : alistGet (lowerStr of) g.relations with
    | none => rfl
    | some b => rw [hg] at h2; simp at h2
  · intro hcov hf ht
    have hrel : alistHas (lowerStr fromName) g.relations = true := hcov _ hf
    cases hb : alistGet (lowerStr fromName) g.relations with
    | none =>
      rw [alistHas, hb] at hrel
      simp at hrel
    | some b =>
      refine ⟨b, hb, ?_⟩
      simp only [markDependency, hf, ht, Bool.true_eq_false, not_true, if_false,
        Bool.not_true, if_neg]
      show alistGet (lowerStr fromName) (setEdge fromName toName dat g.relations) =
        some (alistSet toName dat b)
      rw [setEdge_eq_updateNode, alistGet_updateNode, if_pos rfl, hb]
      rfl

/-- C3 witness: the amended theorem applied to a fresh graph: the node
"foo" starts with an empty edge map, and the unknown name "baz" yields
undefined. -/
theorem listDependencies_spec_witness :
    listDependencies (addNode (emptyGraph : GraphState Nat Nat) "foo" 7).2 "foo" =
      some [] ∧
    listDependencies (emptyGraph : GraphState Nat Nat) "baz" = none :=
  ⟨(listDependencies_spec (emptyGraph : GraphState Nat Nat) "foo" "x" "y" "z" 7 0).1 rfl,
    (listDependencies_spec (emptyGraph : GraphState Nat Nat) "x" "baz" "y" "z" 7 0).2.1 rfl⟩

/-- C4: markDependency checks the source name first — a missing source
yields NotFoundError naming it, whether or not the target exists — then the
target name; when both nodes exist it writes the payload under the target
key in the bucket of the source, observable through listDependencies and
hasDependency. -/
theorem markDependency_spec (g : GraphState ν β) (fromName toName : String) (d : β) :
    (nodeExists g fromName = false →
      markDependency g fromName toName d =
        (Except.error (GraphErr.notFound fromName), g)) ∧
    (nodeExists g fromName = true → nodeExists g toName = false →
      markDependency g fromName toName d =
        (Except.error (GraphErr.notFound toName), g)) ∧
    (BucketsCover g → nodeExists g fromName = true → nodeExists g toName = true →
      ∃ b, ciGet fromName g.relations = some b ∧
        markDependency g fromName toName d =
          (Except.ok (), { g with relations := setEdge fromName toName d g.relations }) ∧
        ciGet fromName (markDependency g fromName toName d).2.relations =
          some (alistSet toName d b) ∧
        alistGet toName (alistSet toName d b) = some d ∧
        hasDependency (markDependency g fromName toName d).2 fromName toName = true) := by
  refine ⟨?_, ?_, ?_⟩
  · intro hf
    simp [markDependency, hf]
  · intro hf ht
    simp [markDependency, hf, ht]
  · intro hcov hf ht
    have hrel : alistHas (lowerStr fromName) g.relations = true := hcov _ hf
    cases hb : alistGet (lowerStr fromName) g.relations with
    | none =>
      rw [alistHas, hb] at hrel
      simp at hrel
    | some b =>
      have hnew : ciGet fromName (setEdge fromName toName d g.relations) =
          some (alistSet toName d b) := by
        show alistGet (lowerStr fromName) (setEdge fromName toName d g.relations) = _
        rw [setEdge_eq_updateNode, alistGet_updateNode, if_pos rfl, hb]
        rfl
      have hstate : markDependency g fromName toName d =
          (Except.ok (), { g with relations := setEdge fromName toName d g.relations }) := by
        simp [markDependency, hf, ht]
      refine ⟨b, hb, hstate, ?_, ?_, ?_⟩
      · rw [hstate]
        exact hnew
      · rw [alistGet_set, if_pos rfl]
      · have hmem : toName ∈ alistKeys (alistSet toName d b) := by
          refine (alistHas_iff _ _).mp ?_
          rw [alistHas, alistGet_set, if_pos rfl]
          rfl
        rw [hstate]
        unfold hasDependency
        rw [show (GraphState.mk g.nodes (setEdge fromName toName d g.relations)).relations =
          setEdge fromName toName d g.relations from rfl, hnew]
        show (alistKeys (alistSet toName d b)).contains toName = true
        exact List.elem_iff.mpr hmem

/-- C4 witness: the ordering theorem applied to a two-node graph: marking
from the node "foo" to the node "bar" succeeds and stores the payload. -/
theorem markDependency_spec_witness :
    hasDependency (markDependency
      (addNode (addNode (emptyGraph : GraphState Nat Nat) "foo" 7).2 "bar" 8).2
      "foo" "bar" 5).2 "foo" "bar" = true := by
  obtain ⟨b, hb, hstate, hget, hpay, hdep⟩ :=
    (markDependency_spec
      (addNode (addNode (emptyGraph : GraphState Nat Nat) "foo" 7).2 "bar" 8).2
      "foo" "bar" 5).2.2
      (bucketsCover_via_keys _ (by decide)) (by decide) (by decide)
  exact hdep

/-- A successful case-insensitive lookup makes getNode return the stored
value. -/
theorem getNode_of_ciGet (g : GraphState ν β) (name : String) (v : ν)
    (h : ciGet name g.nodes = some v) : getNode g name = Except.ok v := by
  unfold getNode
  rw [h]

/-- A failed case-insensitive lookup makes getNode throw noNodeFoundErr. -/
theorem getNode_of_ciGet_none (g : GraphState ν β) (name : String)
    (h : ciGet name g.nodes = none) :
    getNode g name = Except.error (GraphErr.notFound name) := by
  unfold getNode
  rw [h]

/-- C5: every failing call leaves the state untouched: when
addImpliedDependency throws (NotFoundError or VersionAlreadyExistsError)
or markDependency throws NotFoundError — in particular when only the
target is missing — the node store, every alias list and every relation
bucket are exactly as before, since in the source every existence and
duplicate check runs before the first mutation. -/
theorem failed_ops_leave_graph_unchanged (g : DepGraph α β)
    (name version fromName toName : String) (d : β) :
    (∀ e, (addImpliedDependency g name version).1 = Except.error e →
      (addImpliedDependency g name version).2 = g) ∧
    (∀ e, (markDependency g fromName toName d).1 = Except.error e →
      (markDependency g fromName toName d).2 = g) := by
  constructor
  · intro e he
    unfold addImpliedDependency at he ⊢
    cases hg : ciGet name g.nodes with
    | none => simp [hg]
    | some n =>
      simp only [hg] at he ⊢
      by_cases hv : version ∈ n.aliases
      · simp [hv]
      · simp [hv] at he
  · intro e he
    unfold markDependency at he ⊢
    by_cases hf : nodeExists g fromName = true
    · by_cases ht : nodeExists g toName = true
      · simp [hf, ht] at he
      · simp [hf, ht]
    · simp [hf]

/-- C5 witness: the atomicity theorem applied to a one-node graph where
markDependency fails because only the target "bar" is missing, and
addImpliedDependency fails because the node "nope" is missing. -/
theorem failed_ops_leave_graph_unchanged_witness :
    (markDependency ((addRealDependency (emptyGraph : DepGraph Nat Nat) "foo" "1" 7).2)
      "foo" "bar" 5).2 =
      (addRealDependency (emptyGraph : DepGraph Nat Nat) "foo" "1" 7).2 ∧
    (addImpliedDependency ((addRealDependency (emptyGraph : DepGraph Nat Nat) "foo" "1" 7).2)
      "nope" "2").2 =
      (addRealDependency (emptyGraph : DepGraph Nat Nat) "foo" "1" 7).2 :=
  ⟨(failed_ops_leave_graph_unchanged
      ((addRealDependency (emptyGraph : DepGraph Nat Nat) "foo" "1" 7).2)
      "nope" "2" "foo" "bar" 5).2 (GraphErr.notFound "bar") rfl,
    (failed_ops_leave_graph_unchanged
      ((addRealDependency (emptyGraph : DepGraph Nat Nat) "foo" "1" 7).2)
      "nope" "2" "foo" "bar" 5).1 (GraphErr.notFound "nope") rfl⟩

/-- C6: addImpliedDependency throws NotFoundError when the node is missing;
throws VersionAlreadyExistsError when the version is already an alias of
the node; and otherwise appends the version at the end of the alias list
of the node. -/
theorem addImpliedDependency_spec (g : DepGraph α β) (name version : String) :
    (nodeExists g name = false →
      addImpliedDependency g name version =
        (Except.error (GraphErr.notFound name), g)) ∧
    (∀ n, ciGet name g.nodes = some n → version ∈ n.aliases →
      addImpliedDependency g name version =
        (Except.error (GraphErr.versionAlreadyExists name version), g)) ∧
    (∀ n, ciGet name g.nodes = some n → version ∉ n.aliases →
      (addImpliedDependency g name version).1 = Except.ok () ∧
      getDependencyAliases (addImpliedDependency g name version).2 name =
        Except.ok (n.aliases ++ [version])) := by
  refine ⟨?_, ?_, ?_⟩
  · intro hn
    have hg : ciGet name g.nodes = none := by
      have h2 : (ciGet name g.nodes).isSome = false := hn
      cases hg2 : ciGet name g.nodes with
      | none => rfl
      | some n => rw [hg2] at h2; simp at h2
    unfold addImpliedDependency
    rw [hg]
  · intro n hg hv
    have hvb : n.aliases.contains version = true := List.elem_iff.mpr hv
    unfold addImpliedDependency
    simp only [hg, hvb, if_true]
  · intro n hg hv
    have hvb : n.aliases.contains version = false := by
      cases hc : n.aliases.contains version with
      | false => rfl
      | true => exact absurd (List.elem_iff.mp hc) hv
    constructor
    · unfold addImpliedDependency
      simp only [hg, hvb, Bool.false_eq_true, if_false]
    · have hstep : (addImpliedDependency g name version).2 = GraphState.mk
          (updateNode name (fun m => { m with aliases := m.aliases ++ [version] }) g.nodes)
          g.relations := by
        unfold addImpliedDependency
        simp only [hg, hvb, Bool.false_eq_true, if_false]
      have hget : ciGet name (updateNode name
          (fun m => { m with aliases := m.aliases ++ [version] }) g.nodes) =
          some { n with aliases := n.aliases ++ [version] } := by
        unfold ciGet
        rw [alistGet_updateNode, if_pos rfl,
          show alistGet (lowerStr name) g.nodes = some n from hg]
        rfl
      unfold getDependencyAliases
      rw [hstep, getNode_of_ciGet _ _ _ hget]
      rfl

/-- C6 witness: after registering the real dependency "foo" at version "1",
an implied dependency at version "2" extends the aliases to the two-element
list, and repeating version "2" throws VersionAlreadyExistsError. -/
theorem addImpliedDependency_spec_witness :
    (addImpliedDependency
      ((addRealDependency (emptyGraph : DepGraph Nat Nat) "foo" "1" 7).2) "foo" "2").1 =
      Except.ok () ∧
    getDependencyAliases (addImpliedDependency
      ((addRealDependency (emptyGraph : DepGraph Nat Nat) "foo" "1" 7).2) "foo" "2").2
      "foo" = Except.ok ["1", "2"] ∧
    addImpliedDependency (addImpliedDependency
      ((addRealDependency (emptyGraph : DepGraph Nat Nat) "foo" "1" 7).2) "foo" "2").2
      "foo" "2" =
      (Except.error (GraphErr.versionAlreadyExists "foo" "2"),
        (addImpliedDependency
          ((addRealDependency (emptyGraph : DepGraph Nat Nat) "foo" "1" 7).2) "foo" "2").2) := by
  obtain ⟨hok, hal⟩ :=
    (addImpliedDependency_spec
      ((addRealDependency (emptyGraph : DepGraph Nat Nat) "foo" "1" 7).2) "foo" "2").2.2
      ⟨7, "1", ["1"]⟩ rfl (by decide)
  refine ⟨hok, hal, ?_⟩
  exact (addImpliedDependency_spec
    ((addImpliedDependency
      ((addRealDependency (emptyGraph : DepGraph Nat Nat) "foo" "1" 7).2) "foo" "2").2)
    "foo" "2").2.1 ⟨7, "1", ["1", "2"]⟩ rfl (by decide)

/-- C7: listDependants of a name contains exactly one entry per stored
source bucket that holds the name among its target keys, mapped to the
payload that bucket stores for the name; sources without such an edge
contribute nothing. -/
theorem listDependants_spec (g : GraphState ν β) (of x : String) (p : β) :
    (x, p) ∈ listDependants g of ↔
      ∃ b, (x, b) ∈ g.relations ∧ alistGet of b = some p := by
  unfold listDependants
  rw [List.mem_filterMap]
  constructor
  · rintro ⟨q, hq, hfq⟩
    by_cases hc : (alistKeys q.2).contains of = true
    · rw [if_pos hc] at hfq
      cases hget : alistGet of q.2 with
      | none =>
        rw [hget] at hfq
        exact Option.noConfusion hfq
      | some v =>
        rw [hget] at hfq
        have hfq2 : (q.1, v) = (x, p) := Option.some.inj hfq
        have h1 : q.1 = x := congrArg Prod.fst hfq2
        have h2 : v = p := congrArg Prod.snd hfq2
        refine ⟨q.2, ?_, ?_⟩
        · rw [← h1]
          exact hq
        · rw [hget, h2]
    · rw [if_neg hc] at hfq
      exact Option.noConfusion hfq
  · rintro ⟨b, hb, hget⟩
    refine ⟨(x, b), hb, ?_⟩
    have hc : (alistKeys b).contains of = true := by
      refine List.elem_iff.mpr ((alistHas_iff _ _).mp ?_)
      rw [alistHas, hget]
      rfl
    show (if (alistKeys b).contains of = true
      then (alistGet of b).map fun v => (x, v) else none) = some (x, p)
    rw [if_pos hc, hget]
    rfl

/-- C7 witness: in a graph with the buckets of "foo" and "baz" pointing at
"bar" and the bucket of "bar" empty, the dependants of "bar" include "foo"
with its stored payload. -/
theorem listDependants_spec_witness :
    ("foo", 1) ∈ listDependants
      (GraphState.mk ([("foo", 0), ("bar", 0), ("baz", 0)] : List (String × Nat))
        [("foo", [("bar", 1)]), ("bar", []), ("baz", [("bar", 3)])]) "bar" :=
  (listDependants_spec
    (GraphState.mk ([("foo", 0), ("bar", 0), ("baz", 0)] : List (String × Nat))
      [("foo", [("bar", 1)]), ("bar", []), ("baz", [("bar", 3)])]) "bar" "foo" 1).mpr
    ⟨[("bar", 1)], by decide, by decide⟩

/-- C8: addRealDependency is addNode applied to the record holding the
payload, the version and the one-element alias list; it throws
AlreadyExistsError on a present name, and on success the data, version and
aliases projections read back what was stored. -/
theorem addRealDependency_spec (g : DepGraph α β) (name version : String) (d : α) :
    addRealDependency g name version d = addNode g name ⟨d, version, [version]⟩ ∧
    (nodeExists g name = true →
      addRealDependency g name version d =
        (Except.error (GraphErr.alreadyExists name), g)) ∧
    (nodeExists g name = false →
      getDependencyData (addRealDependency g name version d).2 name = Except.ok d ∧
      getDependencyVersion (addRealDependency g name version d).2 name =
        Except.ok version ∧
      getDependencyAliases (addRealDependency g name version d).2 name =
        Except.ok [version]) := by
  refine ⟨rfl, ?_, ?_⟩
  · intro hn
    unfold addRealDependency addNode
    rw [if_pos hn]
  · intro hn
    have hstate : (addRealDependency g name version d).2 =
        GraphState.mk (ciSet name ⟨d, version, [version]⟩ g.nodes)
          (ciSet name [] g.relations) := by
      unfold addRealDependency addNode
      rw [if_neg (by rw [hn]; exact Bool.false_ne_true)]
    have hget : ciGet name (ciSet name (⟨d, version, [version]⟩ : GraphNode α) g.nodes) =
        some ⟨d, version, [version]⟩ := by
      unfold ciGet ciSet
      rw [alistGet_set, if_pos rfl]
    refine ⟨?_, ?_, ?_⟩
    · unfold getDependencyData
      rw [hstate, getNode_of_ciGet _ _ _ hget]
      rfl
    · unfold getDependencyVersion
      rw [hstate, getNode_of_ciGet _ _ _ hget]
      rfl
    · unfold getDependencyAliases
      rw [hstate, getNode_of_ciGet _ _ _ hget]
      rfl

/-- C8 witness: after addRealDependency of "foo" at version "1" with the
payload "bar" on a fresh graph, the three getters read back "bar", "1" and
the one-element alias list. -/
theorem addRealDependency_spec_witness :
    getDependencyData
      (addRealDependency (emptyGraph : DepGraph String Nat) "foo" "1" "bar").2 "foo" =
      Except.ok "bar" ∧
    getDependencyVersion
      (addRealDependency (emptyGraph : DepGraph String Nat) "foo" "1" "bar").2 "foo" =
      Except.ok "1" ∧
    getDependencyAliases
      (addRealDependency (emptyGraph : DepGraph String Nat) "foo" "1" "bar").2 "foo" =
      Except.ok ["1"] :=
  (addRealDependency_spec (emptyGraph : DepGraph String Nat) "foo" "1" "bar").2.2 rfl

/-- markDependency never touches the node store. -/
theorem markDependency_nodes (g : GraphState ν β) (fromName toName : String) (d : β) :
    (markDependency g fromName toName d).2.nodes = g.nodes := by
  unfold markDependency
  by_cases h1 : nodeExists g fromName = true
  · by_cases h2 : nodeExists g toName = true
    · simp [h1, h2]
    · simp [h1, h2]
  · simp [h1]

/-- Writing an edge never changes which sources own buckets. -/
theorem alistHas_setEdge (k fromName toName : String) (d : β)
    (l : List (String × List (String × β))) :
    alistHas k (setEdge fromName toName d l) = alistHas k l := by
  rw [alistHas, alistHas, setEdge_eq_updateNode, alistGet_updateNode]
  by_cases hk : lowerStr fromName = k
  · rw [if_pos hk]
    cases alistGet k l <;> rfl
  · rw [if_neg hk]

/-- markDependency never changes which sources own buckets. -/
theorem markDependency_relations_has (g : GraphState ν β)
    (fromName toName : String) (d : β) (k : String) :
    alistHas k (markDependency g fromName toName d).2.relations =
      alistHas k g.relations := by
  unfold markDependency
  by_cases h1 : nodeExists g fromName = true
  · by_cases h2 : nodeExists g toName = true
    · simp only [h1, h2, not_true, if_false, Bool.not_true]
      simp [alistHas_setEdge]
    · simp [h1, h2]
  · simp [h1]

/-- Monotone growth is reflexive. -/
theorem extendsRefl (g : DepGraph α β) : Extends g g :=
  fun _ n h => ⟨n, h, rfl, rfl, [], by simp⟩

/-- Monotone growth composes. -/
theorem extendsTrans {g1 g2 g3 : DepGraph α β}
    (h1 : Extends g1 g2) (h2 : Extends g2 g3) : Extends g1 g3 := by
  intro k n hn
  obtain ⟨m, hm, hd, hv, t1, ht1⟩ := h1 k n hn
  obtain ⟨m2, hm2, hd2, hv2, t2, ht2⟩ := h2 k m hm
  exact ⟨m2, hm2, hd2.trans hd, hv2.trans hv, t1 ++ t2,
    by rw [ht2, ht1, List.append_assoc]⟩

/-- One public operation only grows the graph: stored nodes survive with
their payload and canonical version, and aliases are only appended to. -/
theorem extends_applyOp (g : DepGraph α β) (op : GraphOp α β) :
    Extends g (applyOp g op).2 := by
  cases op with
  | real name version d =>
    show Extends g (addRealDependency g name version d).2
    unfold addRealDependency addNode
    by_cases hn : nodeExists g name = true
    · rw [if_pos hn]
      exact extendsRefl g
    · have hb : nodeExists g name = false := by simpa using hn
      rw [if_neg hn]
      intro k n hk
      refine ⟨n, ?_, rfl, rfl, [], by simp⟩
      show alistGet k (ciSet name ⟨d, version, [version]⟩ g.nodes) = some n
      unfold ciSet
      rw [alistSet_eq_append _ _ _ hb, alistGet_append, hk]
  | implied name version =>
    show Extends g (addImpliedDependency g name version).2
    unfold addImpliedDependency
    cases hg : ciGet name g.nodes with
    | none =>
      simp only [hg]
      exact extendsRefl g
    | some n =>
      by_cases hv : version ∈ n.aliases
      · have hvb : n.aliases.contains version = true := List.elem_iff.mpr hv
        simp only [hg, hvb, if_true]
        exact extendsRefl g
      · have hvb : n.aliases.contains version = false := by
          cases hc : n.aliases.contains version with
          | false => rfl
          | true => exact absurd (List.elem_iff.mp hc) hv
        simp only [hg, hvb, Bool.false_eq_true, if_false]
        intro k m hk
        show ∃ m2, alistGet k (updateNode name
          (fun q => { q with aliases := q.aliases ++ [version] }) g.nodes) = some m2 ∧
          m2.data = m.data ∧ m2.version = m.version ∧ ∃ tail, m2.aliases = m.aliases ++ tail
        rw [alistGet_updateNode]
        by_cases hkey : lowerStr name = k
        · rw [if_pos hkey, hk]
          exact ⟨{ m with aliases := m.aliases ++ [version] }, rfl, rfl, rfl, [version], rfl⟩
        · rw [if_neg hkey]
          exact ⟨m, hk, rfl, rfl, [], by simp⟩
  | mark fromName toName d =>
    show Extends g (markDependency g fromName toName d).2
    intro k n hk
    refine ⟨n, ?_, rfl, rfl, [], by simp⟩
    rw [markDependency_nodes]
    exact hk

/-- One public operation preserves the graph invariant. -/
theorem invariant_applyOp (g : DepGraph α β) (op : GraphOp α β) (h : Invariant g) :
    Invariant (applyOp g op).2 := by
  obtain ⟨h1, h2, h3, h4⟩ := h
  cases op with
  | real name version d =>
    show Invariant (addRealDependency g name version d).2
    unfold addRealDependency addNode
    by_cases hn : nodeExists g name = true
    · rw [if_pos hn]
      exact ⟨h1, h2, h3, h4⟩
    · have hb : nodeExists g name = false := by simpa using hn
      have hbn : alistHas (lowerStr name) g.nodes = false := hb
      rw [if_neg hn]
      have hset : ciSet name (⟨d, version, [version]⟩ : GraphNode α) g.nodes =
          g.nodes ++ [(lowerStr name, ⟨d, version, [version]⟩)] :=
        alistSet_eq_append _ _ _ hbn
      have hnotin : lowerStr name ∉ (alistKeys g.nodes).map lowerStr := by
        intro hmem
        obtain ⟨k0, hk0mem, hk0eq⟩ := List.mem_map.mp hmem
        obtain ⟨p, hpmem, hp1⟩ := List.mem_map.mp hk0mem
        have hlow : lowerStr p.1 = p.1 := h2 p hpmem
        have hk0fix : k0 = lowerStr name := by
          rw [← hk0eq, ← hp1, hlow, hp1]
        have hhas : alistHas k0 g.nodes = true := (alistHas_iff _ _).mpr hk0mem
        rw [hk0fix, hbn] at hhas
        exact Bool.noConfusion hhas
      refine ⟨?_, ?_, ?_, ?_⟩
      · show ((alistKeys (ciSet name ⟨d, version, [version]⟩ g.nodes)).map lowerStr).Nodup
        rw [hset, alistKeys_append, List.map_append]
        show (((alistKeys g.nodes).map lowerStr) ++ [lowerStr (lowerStr name)]).Nodup
        rw [lowerStr_idem]
        simp only [List.nodup_append, List.nodup_cons, List.not_mem_nil,
          not_false_iff, List.nodup_nil, and_true, true_and]
        refine ⟨h1, ?_⟩
        intro a ha
        simp only [List.mem_cons, List.not_mem_nil, or_false]
        intro heq
        rw [heq] at ha
        exact hnotin ha
      · intro p hp
        rw [show (GraphState.mk (ciSet name ⟨d, version, [version]⟩ g.nodes)
          (ciSet name [] g.relations)).nodes =
          ciSet name ⟨d, version, [version]⟩ g.nodes from rfl, hset] at hp
        rcases List.mem_append.mp hp with hp | hp
        · exact h2 p hp
        · rcases List.mem_singleton.mp hp with rfl
          exact lowerStr_idem name
      · intro p hp
        rw [show (GraphState.mk (ciSet name ⟨d, version, [version]⟩ g.nodes)
          (ciSet name [] g.relations)).nodes =
          ciSet name ⟨d, version, [version]⟩ g.nodes from rfl, hset] at hp
        rcases List.mem_append.mp hp with hp | hp
        · exact h3 p hp
        · rcases List.mem_singleton.mp hp with rfl
          exact List.mem_singleton.mpr rfl
      · intro k hk
        rw [show (GraphState.mk (ciSet name ⟨d, version, [version]⟩ g.nodes)
          (ciSet name [] g.relations)).nodes =
          ciSet name ⟨d, version, [version]⟩ g.nodes from rfl] at hk
        show alistHas k (ciSet name [] g.relations) = true
        rw [alistHas, show ciSet name ([] : List (String × β)) g.relations =
          alistSet (lowerStr name) [] g.relations from rfl, alistGet_set]
        by_cases hkey : lowerStr name = k
        · rw [if_pos hkey]
          rfl
        · rw [if_neg hkey]
          rw [alistHas, hset, alistGet_append] at hk
          cases hgk : alistGet k g.nodes with
          | some v =>
            have : alistHas k g.nodes = true := by rw [alistHas, hgk]; rfl
            exact h4 k this
          | none =>
            rw [hgk] at hk
            have : alistGet k [(lowerStr name,
                (⟨d, version, [version]⟩ : GraphNode α))] = none := by
              unfold alistGet
              rw [if_neg hkey]
              rfl
            rw [this] at hk
            exact Bool.noConfusion hk
  | implied name version =>
    show Invariant (addImpliedDependency g name version).2
    unfold addImpliedDependency
    cases hg : ciGet name g.nodes with
    | none =>
      simp only [hg]
      exact ⟨h1, h2, h3, h4⟩
    | some n =>
      by_cases hv : version ∈ n.aliases
      · have hvb : n.aliases.contains version = true := List.elem_iff.mpr hv
        simp only [hg, hvb, if_true]
        exact ⟨h1, h2, h3, h4⟩
      · have hvb : n.aliases.contains version = false := by
          cases hc : n.aliases.contains version with
          | false => rfl
          | true => exact absurd (List.elem_iff.mp hc) hv
        simp only [hg, hvb, Bool.false_eq_true, if_false]
        refine ⟨?_, ?_, ?_, ?_⟩
        · show ((alistKeys (updateNode name
            (fun q => { q with aliases := q.aliases ++ [version] }) g.nodes)).map
            lowerStr).Nodup
          rw [updateNode_keys]
          exact h1
        · intro p hp
          obtain ⟨v, hvmem, hcase⟩ := mem_updateNode _ _ _ _ hp
          exact h2 (p.1, v) hvmem
        · intro p hp
          obtain ⟨v, hvmem, hcase⟩ := mem_updateNode _ _ _ _ hp
          have hver : v.version ∈ v.aliases := h3 (p.1, v) hvmem
          rcases hcase with hc2 | hc2
          · rw [hc2]
            exact hver
          · rw [hc2]
            exact List.mem_append_left _ hver
        · intro k hk
          show alistHas k g.relations = true
          rw [alistHas, show (GraphState.mk (updateNode name
            (fun q => { q with aliases := q.aliases ++ [version] }) g.nodes)
            g.relations).nodes = updateNode name
            (fun q => { q with aliases := q.aliases ++ [version] }) g.nodes from rfl,
            alistGet_updateNode] at hk
          by_cases hkey : lowerStr name = k
          · rw [if_pos hkey] at hk
            refine h4 k ?_
            rw [alistHas]
            cases hgk : alistGet k g.nodes with
            | some v => rfl
            | none =>
              rw [hgk] at hk
              exact Bool.noConfusion hk
          · rw [if_neg hkey] at hk
            exact h4 k hk
  | mark fromName toName d =>
    show Invariant (markDependency g fromName toName d).2
    have hn := markDependency_nodes g fromName toName d
    refine ⟨?_, ?_, ?_, ?_⟩
    · rw [hn]
      exact h1
    · rw [hn]
      exact h2
    · rw [hn]
      exact h3
    · intro k hk
      rw [hn] at hk
      rw [markDependency_relations_has]
      exact h4 k hk

/-- Any sequence of public operations preserves the invariant. -/
theorem invariant_runOps (ops : List (GraphOp α β)) :
    ∀ g : DepGraph α β, Invariant g → Invariant (runOps g ops) := by
  induction ops with
  | nil => exact fun _ h => h
  | cons op rest ih => exact fun g h => ih _ (invariant_applyOp g op h)

/-- Any sequence of public operations only grows the graph. -/
theorem extends_runOps (ops : List (GraphOp α β)) :
    ∀ g : DepGraph α β, Extends g (runOps g ops) := by
  induction ops with
  | nil => exact fun g => extendsRefl g
  | cons op rest ih => exact fun g => extendsTrans (extends_applyOp g op) (ih _)

/-- C9: from any state satisfying the invariant, every sequence of public
operations keeps node keys unique case-insensitively, keeps every node
present with its canonical version among its (only growing) aliases, and
addNode and addRealDependency refuse an existing name (compared
case-insensitively) with AlreadyExistsError, leaving the state untouched. -/
theorem graph_invariants (g : DepGraph α β) (ops : List (GraphOp α β))
    (h : Invariant g) :
    Invariant (runOps g ops) ∧ Extends g (runOps g ops) ∧
    (∀ name (d2 : GraphNode α), nodeExists g name = true →
      addNode g name d2 = (Except.error (GraphErr.alreadyExists name), g)) ∧
    (∀ name version (d2 : α), nodeExists g name = true →
      addRealDependency g name version d2 =
        (Except.error (GraphErr.alreadyExists name), g)) := by
  refine ⟨invariant_runOps ops g h, extends_runOps ops g, ?_, ?_⟩
  · intro name d2 hn
    unfold addNode
    rw [if_pos hn]
  · intro name version d2 hn
    unfold addRealDependency addNode
    rw [if_pos hn]

/-- C9 witness: the invariant theorem applied to a fresh graph and a small
run: add the real node "foo" at version "1", alias it with version "2", and
mark an edge from "foo" to itself. -/
theorem graph_invariants_witness :
    Invariant (runOps (emptyGraph : DepGraph Nat Nat)
      [GraphOp.real "foo" "1" 7, GraphOp.implied "foo" "2",
        GraphOp.mark "foo" "foo" 0]) ∧
    Extends (emptyGraph : DepGraph Nat Nat) (runOps (emptyGraph : DepGraph Nat Nat)
      [GraphOp.real "foo" "1" 7, GraphOp.implied "foo" "2",
        GraphOp.mark "foo" "foo" 0]) :=
  ⟨(graph_invariants (emptyGraph : DepGraph Nat Nat)
      [GraphOp.real "foo" "1" 7, GraphOp.implied "foo" "2", GraphOp.mark "foo" "foo" 0]
      (invariant_via_keys _ (by simp [alistKeys, emptyGraph])
        (by simp [emptyGraph]) (by simp [emptyGraph])
        (by simp [alistKeys, emptyGraph]))).1,
    (graph_invariants (emptyGraph : DepGraph Nat Nat)
      [GraphOp.real "foo" "1" 7, GraphOp.implied "foo" "2", GraphOp.mark "foo" "foo" 0]
      (invariant_via_keys _ (by simp [alistKeys, emptyGraph])
        (by simp [emptyGraph]) (by simp [emptyGraph])
        (by simp [alistKeys, emptyGraph]))).2.1⟩

end WcmGraph
